import Mathlib

/-!
Verification of the Dora_YOLO perception pipeline (detector_node, visualizer_node).

The development shallowly embeds the algorithmic core of the repository:
* the 52-byte wire codec (encoder in `detector_node/src/main.rs`, decoder in
  `visualizer_node/src/main.rs`); Rust `String` fields are modelled as lists of
  UTF-8 bytes (a Rust string is exactly a byte sequence satisfying `utf8Valid`),
  and `f32` fields as their 32-bit little-endian bit patterns (`to_le_bytes` /
  `from_le_bytes` act on bit patterns only, so this is exact);
* the YOLO decode + NMS pipeline of `detector_node/src/lib.rs`
  (`yolo_postprocess`), with `f32` arithmetic idealised as exact rational
  arithmetic and slice indexing made explicit: an out-of-bounds read (a Rust
  panic) is modelled as `none`;
* the duplicate decoder, mock-detection path, frame-length guard and adaptive
  pacing controller of `detector_node/src/main.rs`.

Iterations that Rust expresses as loops are modelled by structural recursion on
a fuel argument that the wrapper instantiates large enough to be irrelevant
(`..._congr` lemmas make the irrelevance precise), so every definition remains
kernel-executable on concrete inputs.
-/

/-! ## Byte-level helpers: UTF-8 validity and NUL trimming

`str::from_utf8` succeeds exactly on byte sequences that are valid UTF-8
(no overlong forms, no surrogates, no out-of-range code points); `utf8Valid`
is that predicate, executable, phrased with a step function `charSpan` that
consumes one well-formed scalar-value encoding.  `trim_matches('\0')` removes
leading and trailing NUL characters; on valid UTF-8 the NUL character is
exactly the zero byte, so it is byte-level trimming (`trimNul`). -/

/-- A UTF-8 continuation byte: `0x80 ≤ b ≤ 0xBF`. -/
def contB (b : ℕ) : Bool := 0x80 ≤ b && b ≤ 0xBF

/-- Consume one UTF-8 scalar-value encoding whose lead byte is `b` and whose
following bytes start `rest`; return the remaining bytes, or `none` if the
bytes at hand do not encode a scalar value (overlongs, surrogates and values
above `U+10FFFF` excluded, as in Rust's `str::from_utf8`). -/
def charSpan (b : ℕ) (rest : List ℕ) : Option (List ℕ) :=
  if b < 0x80 then some rest
  else if 0xC2 ≤ b && b ≤ 0xDF then
    match rest with
    | c1 :: r1 => if contB c1 then some r1 else none
    | [] => none
  else if b = 0xE0 then
    match rest with
    | c1 :: c2 :: r2 => if (0xA0 ≤ c1 && c1 ≤ 0xBF) && contB c2 then some r2 else none
    | _ => none
  else if (0xE1 ≤ b && b ≤ 0xEC) || b = 0xEE || b = 0xEF then
    match rest with
    | c1 :: c2 :: r2 => if contB c1 && contB c2 then some r2 else none
    | _ => none
  else if b = 0xED then
    match rest with
    | c1 :: c2 :: r2 => if (0x80 ≤ c1 && c1 ≤ 0x9F) && contB c2 then some r2 else none
    | _ => none
  else if b = 0xF0 then
    match rest with
    | c1 :: c2 :: c3 :: r3 =>
      if (0x90 ≤ c1 && c1 ≤ 0xBF) && contB c2 && contB c3 then some r3 else none
    | _ => none
  else if 0xF1 ≤ b && b ≤ 0xF3 then
    match rest with
    | c1 :: c2 :: c3 :: r3 => if contB c1 && contB c2 && contB c3 then some r3 else none
    | _ => none
  else if b = 0xF4 then
    match rest with
    | c1 :: c2 :: c3 :: r3 =>
      if (0x80 ≤ c1 && c1 ≤ 0x8F) && contB c2 && contB c3 then some r3 else none
    | _ => none
  else none

set_option maxHeartbeats 1600000 in
/-- `charSpan` only ever returns a suffix of its input, so it shrinks. -/
theorem charSpan_length {b : ℕ} {rest r : List ℕ} (h : charSpan b rest = some r) :
    r.length ≤ rest.length := by
  rcases rest with _ | ⟨c1, _ | ⟨c2, _ | ⟨c3, r3⟩⟩⟩ <;>
    (simp only [charSpan] at h
     split_ifs at h <;>
       first
         | exact Option.noConfusion h
         | (injection h with h; subst h; (try simp only [List.length_cons]); omega))

/-- Fuel-indexed UTF-8 validation loop; the fuel only needs to dominate the
byte count. -/
def utf8ValidFuel : ℕ → List ℕ → Bool
  | _, [] => true
  | 0, _ :: _ => false
  | fuel + 1, b :: rest =>
    match charSpan b rest with
    | some r => utf8ValidFuel fuel r
    | none => false

/-- UTF-8 validity of a byte sequence, as checked by Rust's `str::from_utf8`. -/
def utf8Valid (l : List ℕ) : Bool := utf8ValidFuel l.length l

/-- The fuel is irrelevant as long as it dominates the byte count. -/
theorem utf8ValidFuel_congr :
    ∀ (f1 f2 : ℕ) (l : List ℕ), l.length ≤ f1 → l.length ≤ f2 →
      utf8ValidFuel f1 l = utf8ValidFuel f2 l := by
  intro f1
  induction f1 with
  | zero =>
    intro f2 l h1 _
    have : l = [] := List.length_eq_zero.mp (Nat.le_zero.mp h1)
    subst this
    cases f2 <;> rfl
  | succ f1 ih =>
    intro f2 l h1 h2
    match l with
    | [] => cases f2 <;> rfl
    | b :: rest =>
      match f2 with
      | 0 => simp at h2
      | f2 + 1 =>
        show (match charSpan b rest with
              | some r => utf8ValidFuel f1 r
              | none => false) =
             (match charSpan b rest with
              | some r => utf8ValidFuel f2 r
              | none => false)
        cases hcs : charSpan b rest with
        | none => rfl
        | some r =>
          have hr := charSpan_length hcs
          simp only [List.length_cons] at h1 h2
          exact ih f2 r (by omega) (by omega)

/-- One-step unfolding of `utf8Valid`. -/
theorem utf8Valid_cons (b : ℕ) (rest : List ℕ) :
    utf8Valid (b :: rest) =
      match charSpan b rest with
      | some r => utf8Valid r
      | none => false := by
  show utf8ValidFuel (rest.length + 1) (b :: rest) = _
  show (match charSpan b rest with
        | some r => utf8ValidFuel rest.length r
        | none => false) = _
  cases hcs : charSpan b rest with
  | none => rfl
  | some r =>
    exact utf8ValidFuel_congr rest.length r.length r (charSpan_length hcs) le_rfl

/-- Byte-level model of `trim_matches('\0')`: drop zero bytes from both ends. -/
def trimNul (l : List ℕ) : List ℕ :=
  ((l.dropWhile (· = 0)).reverse.dropWhile (· = 0)).reverse

/-- Model of the visualizer's text-field decode:
`str::from_utf8(bytes).unwrap_or("").trim_matches('\0').to_string()`. -/
def decodeText (bytes : List ℕ) : List ℕ :=
  if utf8Valid bytes then trimNul bytes else []

/-! ## Little-endian 32-bit fields

`f32::to_le_bytes` / `f32::from_le_bytes` move the 32-bit pattern unchanged, so
the numeric wire fields are modelled by their bit patterns (naturals `< 2^32`). -/

/-- The four little-endian bytes of a 32-bit pattern (`to_le_bytes`). -/
def toLe4 (n : ℕ) : List ℕ :=
  [n % 256, n / 256 % 256, n / 256 ^ 2 % 256, n / 256 ^ 3 % 256]

/-- Reassemble a 32-bit pattern from four little-endian bytes
(`from_le_bytes`); missing bytes read as zero. -/
def fromLe4 (l : List ℕ) : ℕ :=
  l.getD 0 0 + 256 * (l.getD 1 0 + 256 * (l.getD 2 0 + 256 * l.getD 3 0))

/-! ## The wire record -/

/-- One wire-format detection record.  Text fields are UTF-8 byte sequences
(the bytes of the Rust `String`s); numeric fields are `f32` bit patterns. -/
structure WireDetection where
  name : List ℕ
  className : List ℕ
  confidence : ℕ
  x : ℕ
  y : ℕ
  width : ℕ
  height : ℕ
  deriving DecidableEq, Repr

/-- Pad-or-truncate a text field to exactly 16 bytes, as the encoder does:
`let len = bytes.len().min(16); bytes[..len]` followed by `vec![0; 16 - len]`. -/
def padTo16 (s : List ℕ) : List ℕ :=
  s.take 16 ++ List.replicate (16 - min s.length 16) 0

/-- Encoder for one record (detector_node `main.rs`, serialization block):
16-byte name, 16-byte class name, then five little-endian `f32` fields. -/
def encodeRecord (d : WireDetection) : List ℕ :=
  padTo16 d.name ++ padTo16 d.className ++
    toLe4 d.confidence ++ toLe4 d.x ++ toLe4 d.y ++ toLe4 d.width ++ toLe4 d.height

/-- Encoder for a detection set: records concatenated in order. -/
def encodeDetections (ds : List WireDetection) : List ℕ :=
  (ds.map encodeRecord).flatten

/-- Record size on the wire: 16 + 16 + 4 + 4 + 4 + 4 + 4. -/
def DETECTION_SIZE : ℕ := 16 + 16 + 4 + 4 + 4 + 4 + 4

/-- Decoder for one 52-byte chunk (visualizer_node `main.rs`): bytes 0–15 name,
16–31 class name, then `confidence`, `x`, `y`, `width`, `height` as
little-endian `f32`. -/
def parse52 (chunk : List ℕ) : WireDetection :=
  { name := decodeText (chunk.take 16)
    className := decodeText ((chunk.drop 16).take 16)
    confidence := fromLe4 ((chunk.drop 32).take 4)
    x := fromLe4 ((chunk.drop 36).take 4)
    y := fromLe4 ((chunk.drop 40).take 4)
    width := fromLe4 ((chunk.drop 44).take 4)
    height := fromLe4 ((chunk.drop 48).take 4) }

/-- Fuel-indexed version of the visualizer's chunk loop. -/
def decodeChunksFuel : ℕ → List ℕ → List WireDetection
  | _, [] => []
  | 0, _ :: _ => []
  | fuel + 1, b :: rest =>
    if ((b :: rest).take DETECTION_SIZE).length = DETECTION_SIZE then
      parse52 ((b :: rest).take DETECTION_SIZE) ::
        decodeChunksFuel fuel ((b :: rest).drop DETECTION_SIZE)
    else
      decodeChunksFuel fuel ((b :: rest).drop DETECTION_SIZE)

/-- The visualizer's chunk loop: `for chunk in data.chunks(52)`, parsing a chunk
only when `chunk.len() == 52` (a trailing partial chunk is skipped). -/
def decodeChunks (l : List ℕ) : List WireDetection := decodeChunksFuel l.length l

/-- Error taxonomy of the wire decoder. -/
inductive WireError where
  | malformedDetectionBuffer
  deriving DecidableEq, Repr

/-- The visualizer's decode of a detections message: the buffer length must be
an exact multiple of 52, otherwise the buffer is malformed. -/
def decodeDetections (buf : List ℕ) : Except WireError (List WireDetection) :=
  if buf.length % DETECTION_SIZE = 0 then .ok (decodeChunks buf)
  else .error .malformedDetectionBuffer

/-- State update of the visualizer's `last_detections`: on a well-formed buffer
the parsed list replaces the old one (`last_detections.clear()` then pushes);
on a malformed buffer the previous detection set is kept. -/
def updateLastDetections (buf : List ℕ) (prev : List WireDetection) :
    List WireDetection :=
  match decodeDetections buf with
  | .ok parsed => parsed
  | .error _ => prev

/-! ## C5: malformed buffers -/

/-- C5: for every byte buffer whose length is not a multiple of 52, the wire
decode signals `MalformedDetectionBuffer` and the previously held detection
set is left unchanged (no partial parse is installed). -/
theorem decode_malformed_keeps_previous (buf : List ℕ)
    (prev : List WireDetection) (h : buf.length % 52 ≠ 0) :
    decodeDetections buf = .error .malformedDetectionBuffer ∧
      updateLastDetections buf prev = prev := by
  have h52 : buf.length % DETECTION_SIZE ≠ 0 := by
    simpa [DETECTION_SIZE] using h
  constructor
  · simp [decodeDetections, h52]
  · simp [updateLastDetections, decodeDetections, h52]

/-- Witness for C5 at the concrete one-byte buffer `[7]` and a nonempty
previous detection set. -/
theorem decode_malformed_keeps_previous_witness :
    decodeDetections [7] = .error .malformedDetectionBuffer ∧
      updateLastDetections [7] [⟨[], [], 0, 0, 0, 0, 0⟩] = [⟨[], [], 0, 0, 0, 0, 0⟩] :=
  decode_malformed_keeps_previous [7] [⟨[], [], 0, 0, 0, 0, 0⟩] (by decide)

/-! ## UTF-8 and trimming lemmas for the round-trip -/

/-- A run of NUL bytes is valid UTF-8. -/
theorem utf8Valid_replicate_zero (k : ℕ) :
    utf8Valid (List.replicate k 0) = true := by
  induction k with
  | zero => rfl
  | succ k ih =>
    rw [List.replicate_succ, utf8Valid_cons]
    have : charSpan 0 (List.replicate k 0) = some (List.replicate k 0) := by
      unfold charSpan
      rw [if_pos (by norm_num)]
    rw [this]
    exact ih

set_option maxHeartbeats 1600000 in
/-- Consuming one character commutes with appending a suffix. -/
theorem charSpan_append {b : ℕ} {rest r ys : List ℕ}
    (h : charSpan b rest = some r) :
    charSpan b (rest ++ ys) = some (r ++ ys) := by
  rcases rest with _ | ⟨c1, _ | ⟨c2, _ | ⟨c3, r3⟩⟩⟩ <;>
    (simp only [List.cons_append, List.nil_append]
     simp only [charSpan] at h ⊢
     split_ifs at h ⊢ <;>
       first
         | exact Option.noConfusion h
         | (injection h with h; subst h; rfl))

/-- Concatenation of valid UTF-8 sequences is valid. -/
theorem utf8Valid_append {xs ys : List ℕ} (hx : utf8Valid xs = true)
    (hy : utf8Valid ys = true) : utf8Valid (xs ++ ys) = true := by
  have H : ∀ (n : ℕ) (xs : List ℕ), xs.length ≤ n → utf8Valid xs = true →
      utf8Valid (xs ++ ys) = true := by
    intro n
    induction n with
    | zero =>
      intro xs hlen hx
      have : xs = [] := List.length_eq_zero.mp (Nat.le_zero.mp hlen)
      subst this
      simpa using hy
    | succ n ih =>
      intro xs hlen hx
      match xs with
      | [] => simpa using hy
      | b :: rest =>
        rw [utf8Valid_cons] at hx
        cases hcs : charSpan b rest with
        | none => rw [hcs] at hx; simp at hx
        | some r =>
          rw [hcs] at hx
          rw [List.cons_append, utf8Valid_cons, charSpan_append hcs]
          have hr := charSpan_length hcs
          simp only [List.length_cons] at hlen
          exact ih r (by omega) hx
  exact H xs.length xs le_rfl hx

/-- `dropWhile` is the identity when no element satisfies the predicate. -/
theorem dropWhile_eq_self_of_all_neg {p : ℕ → Bool} {l : List ℕ}
    (h : ∀ b ∈ l, p b = false) : l.dropWhile p = l := by
  cases l with
  | nil => rfl
  | cons x xs => exact List.dropWhile_cons_of_neg (by simp [h x (by simp)])

/-- `dropWhile` eats a leading run of elements satisfying the predicate. -/
theorem dropWhile_replicate_append {p : ℕ → Bool} {a : ℕ} (hp : p a = true)
    (k : ℕ) (l : List ℕ) :
    (List.replicate k a ++ l).dropWhile p = l.dropWhile p := by
  induction k with
  | zero => rfl
  | succ k ih =>
    rw [List.replicate_succ, List.cons_append, List.dropWhile_cons_of_pos hp]
    exact ih

/-- Trimming NUL bytes from a NUL-free sequence padded with trailing NULs
recovers the sequence. -/
theorem trimNul_append_zeros {xs : List ℕ} (k : ℕ)
    (hz : ∀ b ∈ xs, b ≠ 0) :
    trimNul (xs ++ List.replicate k 0) = xs := by
  unfold trimNul
  cases xs with
  | nil => simp [List.dropWhile_replicate]
  | cons x xs =>
    have hx : ¬ (x = 0) := hz x (by simp)
    rw [List.cons_append, List.dropWhile_cons_of_neg (by simpa using hx)]
    rw [← List.cons_append, List.reverse_append, List.reverse_replicate]
    rw [dropWhile_replicate_append (by simp) k]
    rw [dropWhile_eq_self_of_all_neg (by
      intro b hb
      have : b ∈ x :: xs := List.mem_reverse.mp hb
      simpa using hz b this)]
    exact List.reverse_reverse _

/-- Decoding a padded text field recovers the 16-byte truncation, provided the
truncation is valid UTF-8 and NUL-free. -/
theorem decodeText_padTo16 {s : List ℕ}
    (hv : utf8Valid (s.take 16) = true)
    (hz : ∀ b ∈ s.take 16, b ≠ 0) :
    decodeText (padTo16 s) = s.take 16 := by
  unfold decodeText padTo16
  rw [if_pos (utf8Valid_append hv (utf8Valid_replicate_zero _))]
  exact trimNul_append_zeros _ hz

/-- `from_le_bytes` inverts `to_le_bytes` on 32-bit patterns. -/
theorem fromLe4_toLe4 {n : ℕ} (h : n < 2 ^ 32) : fromLe4 (toLe4 n) = n := by
  simp only [toLe4, fromLe4, List.getD_cons_zero, List.getD_cons_succ]
  norm_num
  omega

/-! ## Structure of the encoded buffer -/

/-- A padded text field is exactly 16 bytes. -/
theorem padTo16_length (s : List ℕ) : (padTo16 s).length = 16 := by
  simp only [padTo16, List.length_append, List.length_take, List.length_replicate]
  omega

/-- `to_le_bytes` yields four bytes. -/
theorem toLe4_length (n : ℕ) : (toLe4 n).length = 4 := rfl

/-- An encoded record is exactly 52 bytes. -/
theorem encodeRecord_length (d : WireDetection) : (encodeRecord d).length = 52 := by
  simp [encodeRecord, List.length_append, padTo16_length, toLe4_length]

/-- Fuel irrelevance for the chunk loop. -/
theorem decodeChunksFuel_congr :
    ∀ (f1 f2 : ℕ) (l : List ℕ), l.length ≤ f1 → l.length ≤ f2 →
      decodeChunksFuel f1 l = decodeChunksFuel f2 l := by
  intro f1
  induction f1 with
  | zero =>
    intro f2 l h1 _
    have : l = [] := List.length_eq_zero.mp (Nat.le_zero.mp h1)
    subst this
    cases f2 <;> rfl
  | succ f1 ih =>
    intro f2 l h1 h2
    match l with
    | [] => cases f2 <;> rfl
    | b :: rest =>
      match f2 with
      | 0 => simp at h2
      | f2 + 1 =>
        have hlen : ((b :: rest).drop DETECTION_SIZE).length ≤ f1 ∧
            ((b :: rest).drop DETECTION_SIZE).length ≤ f2 := by
          simp only [List.length_drop, List.length_cons, DETECTION_SIZE]
          simp only [List.length_cons] at h1 h2
          omega
        simp only [decodeChunksFuel]
        split_ifs <;> rw [ih f2 _ hlen.1 hlen.2]

/-- Peeling one full 52-byte record off the front of the buffer. -/
theorem decodeChunks_cons52 (c rest : List ℕ) (hc : c.length = 52) :
    decodeChunks (c ++ rest) = parse52 c :: decodeChunks rest := by
  obtain ⟨b, t, rfl⟩ : ∃ b t, c = b :: t := by
    cases c with
    | nil => simp at hc
    | cons b t => exact ⟨b, t, rfl⟩
  show decodeChunksFuel ((b :: t ++ rest).length) (b :: t ++ rest) = _
  have hlen : (b :: t ++ rest).length = rest.length + 51 + 1 := by
    simp only [List.cons_append, List.length_cons, List.length_append]
    simp only [List.length_cons] at hc
    omega
  rw [hlen, List.cons_append]
  have htake : (b :: (t ++ rest)).take DETECTION_SIZE = b :: t := by
    rw [← List.cons_append]
    exact List.take_left' (by simpa [DETECTION_SIZE] using hc)
  have hdrop : (b :: (t ++ rest)).drop DETECTION_SIZE = rest := by
    rw [← List.cons_append]
    exact List.drop_left' (by simpa [DETECTION_SIZE] using hc)
  simp only [decodeChunksFuel, htake, hdrop]
  rw [if_pos (by simpa [DETECTION_SIZE] using hc)]
  congr 1
  exact decodeChunksFuel_congr _ _ rest (by omega) le_rfl

/-- Parsing an encoded record recomposes it field by field. -/
theorem parse52_encodeRecord (d : WireDetection) :
    parse52 (encodeRecord d) =
      { name := decodeText (padTo16 d.name)
        className := decodeText (padTo16 d.className)
        confidence := fromLe4 (toLe4 d.confidence)
        x := fromLe4 (toLe4 d.x)
        y := fromLe4 (toLe4 d.y)
        width := fromLe4 (toLe4 d.width)
        height := fromLe4 (toLe4 d.height) } := by
  have h0 : encodeRecord d =
      padTo16 d.name ++ (padTo16 d.className ++ (toLe4 d.confidence ++ (toLe4 d.x ++
        (toLe4 d.y ++ (toLe4 d.width ++ toLe4 d.height))))) := by
    simp [encodeRecord]
  have D32 : (encodeRecord d).drop 32 =
      toLe4 d.confidence ++ (toLe4 d.x ++ (toLe4 d.y ++ (toLe4 d.width ++ toLe4 d.height))) := by
    rw [h0, show (32 : ℕ) = 16 + 16 by norm_num, ← List.drop_drop,
        List.drop_left' (padTo16_length _), List.drop_left' (padTo16_length _)]
  have D36 : (encodeRecord d).drop 36 =
      toLe4 d.x ++ (toLe4 d.y ++ (toLe4 d.width ++ toLe4 d.height)) := by
    rw [show (36 : ℕ) = 32 + 4 by norm_num, ← List.drop_drop, D32,
        List.drop_left' (toLe4_length _)]
  have D40 : (encodeRecord d).drop 40 =
      toLe4 d.y ++ (toLe4 d.width ++ toLe4 d.height) := by
    rw [show (40 : ℕ) = 36 + 4 by norm_num, ← List.drop_drop, D36,
        List.drop_left' (toLe4_length _)]
  have D44 : (encodeRecord d).drop 44 = toLe4 d.width ++ toLe4 d.height := by
    rw [show (44 : ℕ) = 40 + 4 by norm_num, ← List.drop_drop, D40,
        List.drop_left' (toLe4_length _)]
  have D48 : (encodeRecord d).drop 48 = toLe4 d.height := by
    rw [show (48 : ℕ) = 44 + 4 by norm_num, ← List.drop_drop, D44,
        List.drop_left' (toLe4_length _)]
  simp only [parse52, WireDetection.mk.injEq]
  refine ⟨?_, ?_, ?_, ?_, ?_, ?_, ?_⟩
  · rw [h0, List.take_left' (padTo16_length _)]
  · rw [h0, List.drop_left' (padTo16_length _), List.take_left' (padTo16_length _)]
  · rw [D32, List.take_left' (toLe4_length _)]
  · rw [D36, List.take_left' (toLe4_length _)]
  · rw [D40, List.take_left' (toLe4_length _)]
  · rw [D44, List.take_left' (toLe4_length _)]
  · rw [D48, List.take_of_length_le (by rw [toLe4_length])]

/-- The record decode actually delivers: truncated text, identical numbers. -/
def truncateRecord (d : WireDetection) : WireDetection :=
  { d with name := d.name.take 16, className := d.className.take 16 }

/-- Hypotheses under which a record survives the wire: the 16-byte truncation
of each text field is valid UTF-8 and NUL-free (a Rust `String` that is at
most 16 bytes and NUL-free satisfies this with `take` the identity), and the
numeric fields are genuine 32-bit patterns. -/
def WireDetection.encodable (d : WireDetection) : Prop :=
  utf8Valid (d.name.take 16) = true ∧ (∀ b ∈ d.name.take 16, b ≠ 0) ∧
  utf8Valid (d.className.take 16) = true ∧ (∀ b ∈ d.className.take 16, b ≠ 0) ∧
  d.confidence < 2 ^ 32 ∧ d.x < 2 ^ 32 ∧ d.y < 2 ^ 32 ∧
  d.width < 2 ^ 32 ∧ d.height < 2 ^ 32

/-- Round trip for one record under the `encodable` hypotheses. -/
theorem parse52_encodeRecord_encodable {d : WireDetection} (h : d.encodable) :
    parse52 (encodeRecord d) = truncateRecord d := by
  obtain ⟨hv1, hz1, hv2, hz2, hc, hx, hy, hw, hh⟩ := h
  rw [parse52_encodeRecord]
  simp only [truncateRecord, decodeText_padTo16 hv1 hz1, decodeText_padTo16 hv2 hz2,
    fromLe4_toLe4 hc, fromLe4_toLe4 hx, fromLe4_toLe4 hy, fromLe4_toLe4 hw,
    fromLe4_toLe4 hh]

/-- An encoded detection set is a whole number of records. -/
theorem encodeDetections_length (ds : List WireDetection) :
    (encodeDetections ds).length = 52 * ds.length := by
  induction ds with
  | nil => rfl
  | cons d ds ih =>
    simp only [encodeDetections, List.map_cons, List.flatten_cons, List.length_append,
      encodeRecord_length, List.length_cons] at *
    omega

/-- Chunk-decoding an encoded set parses each record in order. -/
theorem decodeChunks_encode (ds : List WireDetection) :
    decodeChunks (encodeDetections ds) = ds.map (fun d => parse52 (encodeRecord d)) := by
  induction ds with
  | nil => rfl
  | cons d ds ih =>
    have he : encodeDetections (d :: ds) = encodeRecord d ++ encodeDetections ds := by
      simp [encodeDetections]
    rw [he, decodeChunks_cons52 _ _ (encodeRecord_length d), ih, List.map_cons]

/-! ## C1: wire codec round trip -/

/-- C1 (amended): decoding the encoding of a detection set yields the set with
each text field truncated to its first 16 bytes, provided each record's
16-byte text truncations are valid UTF-8 and NUL-free (and the numeric fields
are 32-bit patterns); in particular, when every text field is at most 16
bytes the round trip is exact.  (The unconditional truncation statement of
the original claim is refuted by `wire_roundtrip_counterexample`: a 16-byte
truncation that splits a multi-byte UTF-8 character decodes to the empty
string, because the visualizer's `str::from_utf8(..).unwrap_or("")` replaces
invalid bytes with `""`.) -/
theorem wire_roundtrip (ds : List WireDetection)
    (h : ∀ d ∈ ds, d.encodable) :
    decodeDetections (encodeDetections ds) = .ok (ds.map truncateRecord) ∧
      ((∀ d ∈ ds, d.name.length ≤ 16 ∧ d.className.length ≤ 16) →
        decodeDetections (encodeDetections ds) = .ok ds) := by
  have hmod : (encodeDetections ds).length % DETECTION_SIZE = 0 := by
    rw [encodeDetections_length]
    simp [DETECTION_SIZE, Nat.mul_mod_right]
  have main : decodeDetections (encodeDetections ds) = .ok (ds.map truncateRecord) := by
    rw [decodeDetections, if_pos hmod, decodeChunks_encode]
    congr 1
    exact List.map_congr_left fun d hd => parse52_encodeRecord_encodable (h d hd)
  refine ⟨main, fun hlen => ?_⟩
  rw [main]
  congr 1
  conv_rhs => rw [← List.map_id ds]
  refine List.map_congr_left fun d hd => ?_
  obtain ⟨h1, h2⟩ := hlen d hd
  simp [truncateRecord, List.take_of_length_le h1, List.take_of_length_le h2]

/-- A 17-byte name whose 16-byte truncation splits the 2-byte UTF-8 encoding
of `é` (bytes `0xC3 0xA9`) after fifteen `a`s. -/
def overlongName : List ℕ := List.replicate 15 97 ++ [195, 169]

/-- C1 counterexample: for the record with `overlongName`, decoding the
encoding does not yield the record with the name truncated to its first 16
bytes — the name field comes back empty instead. -/
theorem wire_roundtrip_counterexample :
    decodeDetections (encodeDetections [⟨overlongName, [99], 0, 0, 0, 0, 0⟩]) =
        .ok [⟨[], [99], 0, 0, 0, 0, 0⟩] ∧
      ([] : List ℕ) ≠ overlongName.take 16 := by
  constructor
  · rfl
  · decide

/-- Witness for C1 at a concrete record (`"person_0"` / `"person"`, `f32` bit
patterns below `2^32`): the round trip is exact. -/
theorem wire_roundtrip_witness :
    decodeDetections (encodeDetections
        [⟨[112, 101, 114, 115, 111, 110, 95, 48], [112, 101, 114, 115, 111, 110],
          1065353216, 1050253722, 1053609165, 1045220557, 1042536202⟩]) =
      .ok [⟨[112, 101, 114, 115, 111, 110, 95, 48], [112, 101, 114, 115, 111, 110],
          1065353216, 1050253722, 1053609165, 1045220557, 1042536202⟩] := by
  refine (wire_roundtrip _ ?_).2 ?_
  · intro d hd
    simp only [List.mem_singleton] at hd
    subst hd
    exact ⟨by decide, by decide, by decide, by decide,
      by decide, by decide, by decide, by decide, by decide⟩
  · intro d hd
    simp only [List.mem_singleton] at hd
    subst hd
    exact ⟨by decide, by decide⟩

/-! ## detector_node/src/lib.rs: `yolo_postprocess`

`f32` values are idealised as exact rationals.  The output slice is a length
plus a value function; `FloatBuf.read` makes every slice index explicit, with
`none` standing for the Rust panic on an out-of-bounds index. -/

/-- `CONF_THRESHOLD` from lib.rs. -/
def CONF_THRESHOLD : ℚ := 0.4

/-- `NMS_THRESHOLD` from lib.rs. -/
def NMS_THRESHOLD : ℚ := 0.5

/-- `num_boxes` from `yolo_postprocess`. -/
def num_boxes : ℕ := 8400

/-- A detection box in corner form, as in lib.rs. -/
structure Detection where
  x1 : ℚ
  y1 : ℚ
  x2 : ℚ
  y2 : ℚ
  conf : ℚ
  class_id : ℕ
  deriving DecidableEq, Repr

/-- The raw model output slice `&[f32]`. -/
structure FloatBuf where
  len : ℕ
  val : ℕ → ℚ

/-- Slice indexing `output[i]`: out of bounds is a Rust panic (`none`). -/
def FloatBuf.read (out : FloatBuf) (i : ℕ) : Option ℚ :=
  if i < out.len then some (out.val i) else none

/-- The per-anchor class scan (`for c in 0..80`), reading
`output[(4 + 1 + c) * num_boxes + i]` and tracking the running maximum score
and its class index (strict `>` update, ties to the first seen).  `fuel`
counts the classes left; the scan starts at class `c` with accumulator
`(class_id, max_class_score)`. -/
def classScan (out : FloatBuf) (i : ℕ) : ℕ → ℕ → ℕ × ℚ → Option (ℕ × ℚ)
  | _, 0, acc => some acc
  | c, fuel + 1, (cid, best) =>
    match out.read ((4 + 1 + c) * num_boxes + i) with
    | none => none
    | some score =>
      classScan out i (c + 1) fuel (if best < score then (c, score) else (cid, best))

/-- One anchor of the decode loop in `yolo_postprocess`: `none` is a panic,
`some none` a skipped anchor, `some (some d)` an emitted candidate. -/
def decodeAnchor (out : FloatBuf) (img_w img_h : ℕ) (i : ℕ) :
    Option (Option Detection) :=
  match out.read (4 * num_boxes + i) with
  | none => none
  | some obj_conf =>
    if obj_conf < CONF_THRESHOLD then some none
    else
      match classScan out i 0 80 (0, 0) with
      | none => none
      | some (class_id, max_class_score) =>
        let conf := obj_conf * max_class_score
        if conf < CONF_THRESHOLD then some none
        else
          match out.read (0 * num_boxes + i), out.read (1 * num_boxes + i),
              out.read (2 * num_boxes + i), out.read (3 * num_boxes + i) with
          | some g0, some g1, some g2, some g3 =>
            let cx := g0 * (img_w : ℚ)
            let cy := g1 * (img_h : ℚ)
            let w := g2 * (img_w : ℚ)
            let h := g3 * (img_h : ℚ)
            some (some
              { x1 := max (cx - w / 2) 0
                y1 := max (cy - h / 2) 0
                x2 := min (cx + w / 2) (img_w : ℚ)
                y2 := min (cy + h / 2) (img_h : ℚ)
                conf := conf
                class_id := class_id })
          | _, _, _, _ => none

/-- The decode loop `for i in 0..num_boxes`, pushing candidates in anchor
order (accumulator reversed at the end, matching `boxes.push`). -/
def decodeLoop (out : FloatBuf) (img_w img_h : ℕ) :
    ℕ → ℕ → List Detection → Option (List Detection)
  | _, 0, acc => some acc.reverse
  | i, fuel + 1, acc =>
    match decodeAnchor out img_w img_h i with
    | none => none
    | some none => decodeLoop out img_w img_h (i + 1) fuel acc
    | some (some d) => decodeLoop out img_w img_h (i + 1) fuel (d :: acc)

/-- `(x2 - x1) * (y2 - y1)`, the area term used by the NMS pass. -/
def boxArea (d : Detection) : ℚ := (d.x2 - d.x1) * (d.y2 - d.y1)

/-- Axis-aligned overlap area; zero when the boxes do not strictly overlap
(the code `continue`s when `inter_x1 >= inter_x2 || inter_y1 >= inter_y2`). -/
def overlapArea (a b : Detection) : ℚ :=
  if max a.x1 b.x1 < min a.x2 b.x2 ∧ max a.y1 b.y1 < min a.y2 b.y2 then
    (min a.x2 b.x2 - max a.x1 b.x1) * (min a.y2 b.y2 - max a.y1 b.y1)
  else 0

/-- Intersection-over-union exactly as computed by the NMS pass:
`inter_area / (area_i + area_j - inter_area)`. -/
def iou (a b : Detection) : ℚ :=
  overlapArea a b / (boxArea a + boxArea b - overlapArea a b)

/-- The suppression test of the NMS inner loop: the boxes strictly overlap and
their IoU exceeds the threshold. -/
def suppresses (u : ℚ) (a b : Detection) : Bool :=
  decide (max a.x1 b.x1 < min a.x2 b.x2 ∧ max a.y1 b.y1 < min a.y2 b.y2) &&
    decide (u < iou a b)

/-- The greedy NMS pass on the confidence-sorted list: the head is kept, every
later box it suppresses is discarded (the `suppressed[j]` flags of the code
become removal from the remaining list), and the loop continues on the rest. -/
def nmsLoopFuel (u : ℚ) : ℕ → List Detection → List Detection
  | _, [] => []
  | 0, _ :: _ => []
  | fuel + 1, b :: rest =>
    b :: nmsLoopFuel u fuel (rest.filter (fun c => !suppresses u b c))

/-- NMS keep-list for an already sorted candidate list. -/
def nmsKeep (u : ℚ) (boxes : List Detection) : List Detection :=
  nmsLoopFuel u boxes.length boxes

/-- `boxes.sort_by(|a, b| b.conf.partial_cmp(&a.conf))`: stable descending
sort by confidence. -/
def sortByConfDesc (boxes : List Detection) : List Detection :=
  boxes.insertionSort (fun a b => b.conf ≤ a.conf)

/-- The Suppressor: sort by confidence descending, then greedy suppression. -/
def nms (u : ℚ) (boxes : List Detection) : List Detection :=
  nmsKeep u (sortByConfDesc boxes)

/-- `yolo_postprocess` from lib.rs: decode all 8400 anchors, then NMS.
`none` models a panic (out-of-bounds slice read) anywhere in the decode. -/
def yolo_postprocess (out : FloatBuf) (img_w img_h : ℕ) : Option (List Detection) :=
  match decodeLoop out img_w img_h 0 num_boxes [] with
  | none => none
  | some boxes => some (nms NMS_THRESHOLD boxes)

/-! ## NMS lemmas -/

/-- Fuel irrelevance for the NMS loop. -/
theorem nmsLoopFuel_congr (u : ℚ) :
    ∀ (f1 f2 : ℕ) (l : List Detection), l.length ≤ f1 → l.length ≤ f2 →
      nmsLoopFuel u f1 l = nmsLoopFuel u f2 l := by
  intro f1
  induction f1 with
  | zero =>
    intro f2 l h1 _
    have : l = [] := List.length_eq_zero.mp (Nat.le_zero.mp h1)
    subst this
    cases f2 <;> rfl
  | succ f1 ih =>
    intro f2 l h1 h2
    match l with
    | [] => cases f2 <;> rfl
    | b :: rest =>
      match f2 with
      | 0 => simp at h2
      | f2 + 1 =>
        simp only [nmsLoopFuel]
        have hf := List.length_filter_le (fun c => !suppresses u b c) rest
        simp only [List.length_cons] at h1 h2
        rw [ih f2 _ (by omega) (by omega)]

/-- Every NMS survivor comes from the candidate list. -/
theorem nmsLoopFuel_subset (u : ℚ) :
    ∀ (fuel : ℕ) (l : List Detection), nmsLoopFuel u fuel l ⊆ l := by
  intro fuel
  induction fuel with
  | zero => intro l; cases l <;> simp [nmsLoopFuel]
  | succ fuel ih =>
    intro l
    cases l with
    | nil => simp [nmsLoopFuel]
    | cons b rest =>
      intro x hx
      simp only [nmsLoopFuel, List.mem_cons] at hx
      rcases hx with rfl | hx
      · exact List.mem_cons_self _ _
      · exact List.mem_cons_of_mem _ (List.filter_subset' rest (ih _ hx))

/-- A candidate the head does not suppress has IoU at most the threshold
(zero IoU when the boxes do not strictly overlap). -/
theorem not_suppresses_iou_le {u : ℚ} {a b : Detection} (hu : 0 ≤ u)
    (h : suppresses u a b = false) : iou a b ≤ u := by
  by_cases hov : max a.x1 b.x1 < min a.x2 b.x2 ∧ max a.y1 b.y1 < min a.y2 b.y2
  · have hlt : ¬ (u < iou a b) := by
      simpa [suppresses, hov] using h
    exact not_lt.mp hlt
  · have h0 : overlapArea a b = 0 := by
      unfold overlapArea
      exact if_neg hov
    have h1 : iou a b = 0 := by
      unfold iou
      rw [h0, zero_div]
    rw [h1]
    exact hu

/-- The NMS keep list is pairwise below the IoU threshold. -/
theorem nmsLoopFuel_pairwise (u : ℚ) (hu : 0 ≤ u) :
    ∀ (fuel : ℕ) (l : List Detection),
      (nmsLoopFuel u fuel l).Pairwise (fun a b => iou a b ≤ u) := by
  intro fuel
  induction fuel with
  | zero => intro l; cases l <;> simp [nmsLoopFuel]
  | succ fuel ih =>
    intro l
    cases l with
    | nil => simp [nmsLoopFuel]
    | cons b rest =>
      simp only [nmsLoopFuel]
      refine List.Pairwise.cons ?_ (ih _)
      intro c hc
      have hcf : c ∈ rest.filter (fun c => !suppresses u b c) :=
        nmsLoopFuel_subset u fuel _ hc
      have hkeep := List.of_mem_filter hcf
      exact not_suppresses_iou_le hu (by simpa using hkeep)

/-- Suppressor survivors are candidates. -/
theorem nms_subset (u : ℚ) (boxes : List Detection) : nms u boxes ⊆ boxes := by
  intro x hx
  have h1 : x ∈ sortByConfDesc boxes := nmsLoopFuel_subset u _ _ hx
  exact (List.mem_insertionSort _).mp h1

/-! ## C2: the Suppressor never keeps two boxes above the IoU threshold -/

/-- C2: for every candidate list and every (nonnegative) IoU threshold `u`, no
two survivors of the Suppressor have IoU exceeding `u`; and in the concrete
scenario of two overlapping boxes with IoU 0.9 and confidences 0.9 and 0.8
under threshold 0.5, only the 0.9-confidence box survives. -/
theorem suppressor_no_overlapping_survivors :
    (∀ (u : ℚ) (boxes : List Detection), 0 ≤ u →
        (nms u boxes).Pairwise (fun a b => iou a b ≤ u)) ∧
      iou ⟨0, 0, 19, 1, 0.9, 0⟩ ⟨1, 0, 20, 1, 0.8, 0⟩ = 0.9 ∧
      nms NMS_THRESHOLD [⟨0, 0, 19, 1, 0.9, 0⟩, ⟨1, 0, 20, 1, 0.8, 0⟩] =
        [⟨0, 0, 19, 1, 0.9, 0⟩] := by
  refine ⟨fun u boxes hu => nmsLoopFuel_pairwise u hu _ _, ?_, ?_⟩
  · with_unfolding_all decide
  · with_unfolding_all decide

/-- Witness for C2 at the concrete threshold 1/2 and the two-box scenario. -/
theorem suppressor_no_overlapping_survivors_witness :
    (nms (1/2) [⟨0, 0, 19, 1, 0.9, 0⟩, ⟨1, 0, 20, 1, 0.8, 0⟩]).Pairwise
      (fun a b => iou a b ≤ (1/2 : ℚ)) :=
  suppressor_no_overlapping_survivors.1 (1/2)
    [⟨0, 0, 19, 1, 0.9, 0⟩, ⟨1, 0, 20, 1, 0.8, 0⟩] (by norm_num)

/-! ## Decoder anchor lemmas -/

/-- Inversion: an emitted candidate pins down every read and both threshold
tests of its anchor. -/
theorem decodeAnchor_inv {out : FloatBuf} {img_w img_h i : ℕ} {d : Detection}
    (hd : decodeAnchor out img_w img_h i = some (some d)) :
    ∃ (obj best : ℚ) (cid : ℕ) (g0 g1 g2 g3 : ℚ),
      out.read (4 * num_boxes + i) = some obj ∧ ¬ obj < CONF_THRESHOLD ∧
      classScan out i 0 80 (0, 0) = some (cid, best) ∧
      ¬ obj * best < CONF_THRESHOLD ∧
      out.read (0 * num_boxes + i) = some g0 ∧
      out.read (1 * num_boxes + i) = some g1 ∧
      out.read (2 * num_boxes + i) = some g2 ∧
      out.read (3 * num_boxes + i) = some g3 ∧
      d = { x1 := max (g0 * (img_w : ℚ) - g2 * (img_w : ℚ) / 2) 0
            y1 := max (g1 * (img_h : ℚ) - g3 * (img_h : ℚ) / 2) 0
            x2 := min (g0 * (img_w : ℚ) + g2 * (img_w : ℚ) / 2) (img_w : ℚ)
            y2 := min (g1 * (img_h : ℚ) + g3 * (img_h : ℚ) / 2) (img_h : ℚ)
            conf := obj * best
            class_id := cid } := by
  cases h1 : out.read (4 * num_boxes + i) with
  | none => simp only [decodeAnchor, h1] at hd; exact Option.noConfusion hd
  | some obj =>
    by_cases h2 : obj < CONF_THRESHOLD
    · simp only [decodeAnchor, h1, if_pos h2] at hd; simp at hd
    · cases h3 : classScan out i 0 80 (0, 0) with
      | none =>
        simp only [decodeAnchor, h1, if_neg h2, h3] at hd
        exact Option.noConfusion hd
      | some p =>
        obtain ⟨cid, best⟩ := p
        by_cases h4 : obj * best < CONF_THRESHOLD
        · simp only [decodeAnchor, h1, if_neg h2, h3, if_pos h4] at hd; simp at hd
        · cases g0 : out.read (0 * num_boxes + i) with
          | none =>
            simp only [decodeAnchor, h1, if_neg h2, h3, if_neg h4, g0] at hd
            exact Option.noConfusion hd
          | some v0 =>
            cases g1 : out.read (1 * num_boxes + i) with
            | none =>
              simp only [decodeAnchor, h1, if_neg h2, h3, if_neg h4, g0, g1] at hd
              exact Option.noConfusion hd
            | some v1 =>
              cases g2 : out.read (2 * num_boxes + i) with
              | none =>
                simp only [decodeAnchor, h1, if_neg h2, h3, if_neg h4, g0, g1, g2] at hd
                exact Option.noConfusion hd
              | some v2 =>
                cases g3 : out.read (3 * num_boxes + i) with
                | none =>
                  simp only [decodeAnchor, h1, if_neg h2, h3, if_neg h4, g0, g1, g2, g3] at hd
                  exact Option.noConfusion hd
                | some v3 =>
                  simp only [decodeAnchor, h1, if_neg h2, h3, if_neg h4, g0, g1, g2, g3,
                    Option.some.injEq] at hd
                  exact ⟨obj, best, cid, v0, v1, v2, v3, rfl, h2, rfl, h4, rfl, rfl, rfl, rfl,
                    hd.symm⟩

/-- An anchor whose objectness is below the threshold is skipped (the early
`continue`, which in particular performs no class-channel read). -/
theorem decodeAnchor_skip_low_obj {out : FloatBuf} {img_w img_h i : ℕ} {obj : ℚ}
    (hr : out.read (4 * num_boxes + i) = some obj) (hobj : obj < CONF_THRESHOLD) :
    decodeAnchor out img_w img_h i = some none := by
  simp only [decodeAnchor, hr, if_pos hobj]

/-- An anchor whose combined confidence is below the threshold is skipped. -/
theorem decodeAnchor_skip_low_conf {out : FloatBuf} {img_w img_h i : ℕ}
    {obj best : ℚ} {cid : ℕ}
    (hr : out.read (4 * num_boxes + i) = some obj) (hobj : ¬ obj < CONF_THRESHOLD)
    (hscan : classScan out i 0 80 (0, 0) = some (cid, best))
    (hconf : obj * best < CONF_THRESHOLD) :
    decodeAnchor out img_w img_h i = some none := by
  simp only [decodeAnchor, hr, if_neg hobj, hscan, if_pos hconf]

/-- The decode loop only produces boxes emitted by some anchor. -/
theorem decodeLoop_mem {out : FloatBuf} {img_w img_h : ℕ} :
    ∀ {fuel i : ℕ} {acc l : List Detection},
      decodeLoop out img_w img_h i fuel acc = some l →
      ∀ d ∈ l, d ∈ acc ∨ ∃ j, decodeAnchor out img_w img_h j = some (some d) := by
  intro fuel
  induction fuel with
  | zero =>
    intro i acc l hl d hdl
    simp only [decodeLoop, Option.some.injEq] at hl
    subst hl
    exact Or.inl (List.mem_reverse.mp hdl)
  | succ fuel ih =>
    intro i acc l hl d hdl
    cases ha : decodeAnchor out img_w img_h i with
    | none => simp only [decodeLoop, ha] at hl; exact Option.noConfusion hl
    | some o =>
      cases o with
      | none =>
        simp only [decodeLoop, ha] at hl
        exact ih hl d hdl
      | some d' =>
        simp only [decodeLoop, ha] at hl
        rcases ih hl d hdl with hacc | hem
        · rcases List.mem_cons.mp hacc with rfl | hacc
          · exact Or.inr ⟨i, ha⟩
          · exact Or.inl hacc
        · exact Or.inr hem

/-- A stretch of anchors that all skip leaves the accumulator unchanged. -/
theorem decodeLoop_all_skip {out : FloatBuf} {img_w img_h : ℕ} :
    ∀ (fuel i : ℕ) (acc : List Detection),
      (∀ j, i ≤ j → j < i + fuel → decodeAnchor out img_w img_h j = some none) →
      decodeLoop out img_w img_h i fuel acc = some acc.reverse := by
  intro fuel
  induction fuel with
  | zero => intro i acc _; rfl
  | succ fuel ih =>
    intro i acc hskip
    have h0 : decodeAnchor out img_w img_h i = some none := hskip i le_rfl (by omega)
    simp only [decodeLoop, h0]
    exact ih (i + 1) acc fun j h1 h2 => hskip j (by omega) (by omega)

/-- One emitting anchor followed by a stretch of skipping anchors pushes
exactly one box. -/
theorem decodeLoop_emit_then_skip {out : FloatBuf} {img_w img_h i fuel : ℕ}
    {d : Detection} {acc : List Detection}
    (h0 : decodeAnchor out img_w img_h i = some (some d))
    (hskip : ∀ j, i + 1 ≤ j → j < i + 1 + fuel →
      decodeAnchor out img_w img_h j = some none) :
    decodeLoop out img_w img_h i (fuel + 1) acc = some (d :: acc).reverse := by
  show (match decodeAnchor out img_w img_h i with
        | none => none
        | some none => decodeLoop out img_w img_h (i + 1) fuel acc
        | some (some d') => decodeLoop out img_w img_h (i + 1) fuel (d' :: acc)) = _
  rw [h0]
  exact decodeLoop_all_skip fuel (i + 1) (d :: acc) hskip

/-- Every box in a successful `yolo_postprocess` result was emitted by some
anchor of the decode loop. -/
theorem yolo_postprocess_mem {out : FloatBuf} {img_w img_h : ℕ}
    {res : List Detection} (hres : yolo_postprocess out img_w img_h = some res) :
    ∀ d ∈ res, ∃ j, decodeAnchor out img_w img_h j = some (some d) := by
  intro d hd
  cases hloop : decodeLoop out img_w img_h 0 num_boxes [] with
  | none => simp only [yolo_postprocess, hloop] at hres; exact Option.noConfusion hres
  | some boxes =>
    simp only [yolo_postprocess, hloop, Option.some.injEq] at hres
    subst hres
    have hb : d ∈ boxes := nms_subset _ _ hd
    rcases decodeLoop_mem hloop d hb with habs | hem
    · simp at habs
    · exact hem

/-! ## C3: the class scan overruns a (4+K)*N buffer -/

/-- C3 (code bug): on a RawModelOutput of exactly `(4+80)*8400` floats, any
anchor that passes the objectness gate makes the class scan read
`(4+1+79)*8400 + i = 84*8400 + i`, one past the end of the buffer — a Rust
panic (`none`) — so `yolo_postprocess` is not total on such buffers: on the
all-0.5 buffer it panics at anchor 0 instead of returning a candidate list.
(The companion decoder in `main.rs` documents the same model output as
`[1, 84, 8400]` with `84 = 4 bbox + 80 classes` and scans channels `4+c`;
the `(4+1+c)` indexing in lib.rs overruns that layout.) -/
theorem decoder_reads_out_of_bounds :
    FloatBuf.read ⟨84 * 8400, fun _ => 0.5⟩ ((4 + 1 + 79) * num_boxes + 0) = none ∧
      decodeAnchor ⟨84 * 8400, fun _ => 0.5⟩ 640 480 0 = none ∧
      yolo_postprocess ⟨84 * 8400, fun _ => 0.5⟩ 640 480 = none := by
  refine ⟨by with_unfolding_all rfl, by with_unfolding_all rfl, ?_⟩
  have h0 : decodeAnchor ⟨84 * 8400, fun _ => 0.5⟩ 640 480 0 = none := by
    with_unfolding_all rfl
  unfold yolo_postprocess
  rw [show num_boxes = 8399 + 1 by norm_num [num_boxes]]
  simp only [decodeLoop, h0]

/-! ## C4: the confidence threshold -/

/-- C4: every box in a successful `yolo_postprocess` result has combined
confidence `obj * max_class_score` at least `CONF_THRESHOLD`; an anchor whose
objectness is below the threshold is skipped (producing no detection), and so
is an anchor whose combined confidence falls below the threshold. -/
theorem decoder_confidence_threshold :
    (∀ (out : FloatBuf) (img_w img_h : ℕ) (res : List Detection),
        yolo_postprocess out img_w img_h = some res →
          ∀ d ∈ res, CONF_THRESHOLD ≤ d.conf) ∧
      (∀ (out : FloatBuf) (img_w img_h i : ℕ) (obj : ℚ),
          out.read (4 * num_boxes + i) = some obj → obj < CONF_THRESHOLD →
            decodeAnchor out img_w img_h i = some none) ∧
      (∀ (out : FloatBuf) (img_w img_h i : ℕ) (obj best : ℚ) (cid : ℕ),
          out.read (4 * num_boxes + i) = some obj → ¬ obj < CONF_THRESHOLD →
            classScan out i 0 80 (0, 0) = some (cid, best) →
            obj * best < CONF_THRESHOLD →
            decodeAnchor out img_w img_h i = some none) := by
  refine ⟨?_, ?_, ?_⟩
  · intro out img_w img_h res hres d hd
    obtain ⟨j, hj⟩ := yolo_postprocess_mem hres d hd
    obtain ⟨obj, best, cid, g0, g1, g2, g3, _, _, _, h4, _, _, _, _, hd'⟩ :=
      decodeAnchor_inv hj
    subst hd'
    exact not_lt.mp h4
  · intro out img_w img_h i obj hr hobj
    exact decodeAnchor_skip_low_obj hr hobj
  · intro out img_w img_h i obj best cid hr hobj hscan hconf
    exact decodeAnchor_skip_low_conf hr hobj hscan hconf

/-- Witness for C4: the all-zero `(4+80)*8400` buffer decodes to the empty
list (every anchor is skipped), and two concrete anchors are skipped by each
of the two threshold gates. -/
theorem decoder_confidence_threshold_witness :
    (∀ d ∈ ([] : List Detection), CONF_THRESHOLD ≤ d.conf) ∧
      decodeAnchor ⟨84 * 8400, fun _ => 0⟩ 640 480 0 = some none ∧
      decodeAnchor ⟨85 * 8400, fun _ => 0.5⟩ 640 480 0 = some none := by
  have hz : yolo_postprocess ⟨84 * 8400, fun _ => 0⟩ 640 480 = some [] := by
    have hskip : ∀ j, 0 ≤ j → j < 0 + num_boxes →
        decodeAnchor ⟨84 * 8400, fun _ => (0 : ℚ)⟩ 640 480 j = some none := by
      intro j _ hj
      have hb : 4 * num_boxes + j < 84 * 8400 := by
        simp only [num_boxes] at hj ⊢
        omega
      have hr : FloatBuf.read ⟨84 * 8400, fun _ => (0 : ℚ)⟩ (4 * num_boxes + j) = some 0 := by
        simp [FloatBuf.read, hb]
      exact decodeAnchor_skip_low_obj hr (by with_unfolding_all decide)
    unfold yolo_postprocess
    rw [decodeLoop_all_skip num_boxes 0 [] hskip]
    rfl
  refine ⟨decoder_confidence_threshold.1 ⟨84 * 8400, fun _ => 0⟩ 640 480 [] hz,
    decoder_confidence_threshold.2.1 ⟨84 * 8400, fun _ => 0⟩ 640 480 0 0
      (by with_unfolding_all rfl) (by with_unfolding_all decide),
    decoder_confidence_threshold.2.2 ⟨85 * 8400, fun _ => 0.5⟩ 640 480 0 0.5 0.5 0
      (by with_unfolding_all rfl) (by with_unfolding_all decide)
      (by with_unfolding_all rfl) (by with_unfolding_all decide)⟩

/-! ## C7: corner clamping -/

/-- C7 (amended): every decoded box has `x1, y1` clamped below by 0 (via
`.max(0.0)`) and `x2, y2` clamped above by the frame dimensions (via
`.min(img_w)` / `.min(img_h)`); the code applies no upper clamp to `x1, y1`
and no lower clamp to `x2, y2`, so the original claim's `x1 ≤ img_w` (and
`0 ≤ x2`) can fail — see `decoder_clamp_counterexample`. -/
theorem decoder_one_sided_clamps (out : FloatBuf) (img_w img_h : ℕ)
    (res : List Detection) (hres : yolo_postprocess out img_w img_h = some res) :
    ∀ d ∈ res, 0 ≤ d.x1 ∧ 0 ≤ d.y1 ∧ d.x2 ≤ (img_w : ℚ) ∧ d.y2 ≤ (img_h : ℚ) := by
  intro d hd
  obtain ⟨j, hj⟩ := yolo_postprocess_mem hres d hd
  obtain ⟨obj, best, cid, g0, g1, g2, g3, _, _, _, _, _, _, _, _, hd'⟩ :=
    decodeAnchor_inv hj
  subst hd'
  exact ⟨le_max_right _ 0, le_max_right _ 0, min_le_right _ _, min_le_right _ _⟩

/-- A model output (with the 85-channel extent the lib.rs scan expects, so no
panic) whose anchor 0 has raw center `cx = 2` and zero size: the decoded box
has `x1 = 2 * 640 = 1280`, beyond the frame width. -/
def spikeBuf : FloatBuf :=
  ⟨85 * 8400, fun idx =>
    if idx = 0 then 2 else if idx = 33600 then 0.8 else if idx = 42000 then 0.8 else 0⟩

/-- C7 counterexample: `yolo_postprocess` emits a detection with
`x1 = 1280 > img_w = 640`: the code never clamps `x1` from above, refuting
`x1 ≤ img_w` for all decoded values. -/
theorem decoder_clamp_counterexample :
    yolo_postprocess spikeBuf 640 480 = some [⟨1280, 0, 640, 0, 0.64, 0⟩] ∧
      ¬ ((⟨1280, 0, 640, 0, 0.64, 0⟩ : Detection).x1 ≤ ((640 : ℕ) : ℚ)) := by
  constructor
  · have h0 : decodeAnchor spikeBuf 640 480 0 =
        some (some ⟨1280, 0, 640, 0, 0.64, 0⟩) := by
      with_unfolding_all rfl
    have hskip : ∀ j, 1 ≤ j → j < 1 + 8399 →
        decodeAnchor spikeBuf 640 480 j = some none := by
      intro j h1 h2
      have hb : 4 * num_boxes + j < 85 * 8400 := by
        simp only [num_boxes]
        omega
      have hr : FloatBuf.read spikeBuf (4 * num_boxes + j) = some 0 := by
        have e1 : ¬ (4 * num_boxes + j = 0) := by simp only [num_boxes]; omega
        have e2 : ¬ (4 * num_boxes + j = 33600) := by simp only [num_boxes]; omega
        have e3 : ¬ (4 * num_boxes + j = 42000) := by simp only [num_boxes]; omega
        simp [spikeBuf, FloatBuf.read, hb, e1, e2, e3]
      exact decodeAnchor_skip_low_obj hr (by with_unfolding_all decide)
    have hloop : decodeLoop spikeBuf 640 480 0 num_boxes [] =
        some [⟨1280, 0, 640, 0, 0.64, 0⟩] := by
      rw [show num_boxes = 8399 + 1 by norm_num [num_boxes]]
      rw [decodeLoop_emit_then_skip h0 fun j hj1 hj2 => hskip j (by omega) (by omega)]
      rfl
    unfold yolo_postprocess
    rw [hloop]
    with_unfolding_all rfl
  · with_unfolding_all decide

/-- Witness for C7 at the `spikeBuf` output: the one-sided clamps hold for
the emitted box (`0 ≤ x1`, `0 ≤ y1`, `x2 ≤ 640`, `y2 ≤ 480`). -/
theorem decoder_one_sided_clamps_witness :
    0 ≤ (⟨1280, 0, 640, 0, 0.64, 0⟩ : Detection).x1 ∧
      0 ≤ (⟨1280, 0, 640, 0, 0.64, 0⟩ : Detection).y1 ∧
      (⟨1280, 0, 640, 0, 0.64, 0⟩ : Detection).x2 ≤ ((640 : ℕ) : ℚ) ∧
      (⟨1280, 0, 640, 0, 0.64, 0⟩ : Detection).y2 ≤ ((480 : ℕ) : ℚ) := by
  have h0 : decodeAnchor spikeBuf 640 480 0 =
      some (some ⟨1280, 0, 640, 0, 0.64, 0⟩) := by
    with_unfolding_all rfl
  have hskip : ∀ j, 1 ≤ j → j < 1 + 8399 →
      decodeAnchor spikeBuf 640 480 j = some none := by
    intro j h1 h2
    have hb : 4 * num_boxes + j < 85 * 8400 := by
      simp only [num_boxes]
      omega
    have hr : FloatBuf.read spikeBuf (4 * num_boxes + j) = some 0 := by
      have e1 : ¬ (4 * num_boxes + j = 0) := by simp only [num_boxes]; omega
      have e2 : ¬ (4 * num_boxes + j = 33600) := by simp only [num_boxes]; omega
      have e3 : ¬ (4 * num_boxes + j = 42000) := by simp only [num_boxes]; omega
      simp [spikeBuf, FloatBuf.read, hb, e1, e2, e3]
    exact decodeAnchor_skip_low_obj hr (by with_unfolding_all decide)
  have hres : yolo_postprocess spikeBuf 640 480 = some [⟨1280, 0, 640, 0, 0.64, 0⟩] := by
    have hloop : decodeLoop spikeBuf 640 480 0 num_boxes [] =
        some [⟨1280, 0, 640, 0, 0.64, 0⟩] := by
      rw [show num_boxes = 8399 + 1 by norm_num [num_boxes]]
      rw [decodeLoop_emit_then_skip h0 fun j hj1 hj2 => hskip j (by omega) (by omega)]
      rfl
    unfold yolo_postprocess
    rw [hloop]
    with_unfolding_all rfl
  exact decoder_one_sided_clamps spikeBuf 640 480 [⟨1280, 0, 640, 0, 0.64, 0⟩] hres
    ⟨1280, 0, 640, 0, 0.64, 0⟩ (by simp)

/-! ## detector_node/src/main.rs: adaptive pacing controller

The in-loop interval update (`process_interval` starts at 1):
latency over 150 ms backs off by one, capped at 10; latency under 50 ms with
interval above 1 recovers by one; anything else leaves it unchanged. -/

/-- One interval update after a processed frame. -/
def updateProcessInterval (elapsed_ms process_interval : ℕ) : ℕ :=
  if 150 < elapsed_ms then min (process_interval + 1) 10
  else if elapsed_ms < 50 ∧ 1 < process_interval then process_interval - 1
  else process_interval

/-- Fold the update over a sequence of observed latencies. -/
def runPacing (latencies : List ℕ) (start : ℕ) : ℕ :=
  latencies.foldl (fun pi l => updateProcessInterval l pi) start

/-- One update preserves the `[1, 10]` window. -/
theorem updateProcessInterval_bounds (l : ℕ) {pi : ℕ} (h1 : 1 ≤ pi) (h2 : pi ≤ 10) :
    1 ≤ updateProcessInterval l pi ∧ updateProcessInterval l pi ≤ 10 := by
  unfold updateProcessInterval
  split_ifs <;> omega

/-- The fold preserves the `[1, 10]` window. -/
theorem runPacing_bounds (latencies : List ℕ) :
    ∀ start, 1 ≤ start → start ≤ 10 →
      1 ≤ runPacing latencies start ∧ runPacing latencies start ≤ 10 := by
  induction latencies with
  | nil => intro start h1 h2; exact ⟨h1, h2⟩
  | cons l ls ih =>
    intro start h1 h2
    have hb := updateProcessInterval_bounds l h1 h2
    exact ih _ hb.1 hb.2

/-! ## C6: the pacing controller -/

/-- C6: from its initial value 1 the interval stays in `[1, 10]` under any
latency sequence; a latency above 150 ms sets `min (pi + 1) 10`; a latency
below 50 ms with interval above 1 decrements; all other latencies leave the
interval unchanged; and the two synthetic traces behave as claimed
([200, 200, 200] from 1 climbs 2, 3, 4 — strictly increasing, capping at 10
under longer runs — and [10, 10, 10] from 5 descends 4, 3, 2, never passing
below 1). -/
theorem pacing_controller_props :
    (∀ latencies : List ℕ, 1 ≤ runPacing latencies 1 ∧ runPacing latencies 1 ≤ 10) ∧
      (∀ l pi, 150 < l → updateProcessInterval l pi = min (pi + 1) 10) ∧
      (∀ l pi, l < 50 → 1 < pi → updateProcessInterval l pi = pi - 1) ∧
      (∀ l pi, ¬ 150 < l → ¬ (l < 50 ∧ 1 < pi) → updateProcessInterval l pi = pi) ∧
      ((runPacing [200] 1, runPacing [200, 200] 1, runPacing [200, 200, 200] 1) =
          (2, 3, 4) ∧
        (runPacing [10] 5, runPacing [10, 10] 5, runPacing [10, 10, 10] 5) = (4, 3, 2) ∧
        runPacing (List.replicate 20 200) 1 = 10 ∧
        runPacing (List.replicate 20 10) 5 = 1) := by
  refine ⟨fun latencies => runPacing_bounds latencies 1 le_rfl (by norm_num),
    ?_, ?_, ?_, by decide, by decide, by decide, by decide⟩
  · intro l pi h
    simp [updateProcessInterval, h]
  · intro l pi h1 h2
    have hn : ¬ 150 < l := by omega
    simp [updateProcessInterval, hn, h1, h2]
  · intro l pi h1 h2
    simp only [updateProcessInterval, if_neg h1, if_neg h2]

/-- Witness for C6 at concrete latencies and intervals: one capped backoff
step at the cap, one recovery step, one unchanged step, and the bounds for a
concrete trace. -/
theorem pacing_controller_props_witness :
    (1 ≤ runPacing [200, 10, 80] 1 ∧ runPacing [200, 10, 80] 1 ≤ 10) ∧
      updateProcessInterval 151 10 = min (10 + 1) 10 ∧
      updateProcessInterval 49 2 = 2 - 1 ∧
      updateProcessInterval 80 3 = 3 :=
  ⟨pacing_controller_props.1 [200, 10, 80],
    pacing_controller_props.2.1 151 10 (by decide),
    pacing_controller_props.2.2.1 49 2 (by decide) (by decide),
    pacing_controller_props.2.2.2.1 80 3 (by decide) (by decide)⟩

/-! ## detector_node/src/main.rs: the duplicate decoder and detector

`main.rs` carries its own `Detection` record (string identity plus normalized
center-form box) and its own decoder over a rank-3 output tensor accessed via
`.get([0, c, i]).unwrap_or(&0.0)` — out-of-range reads default to `0.0`
rather than panicking. -/

/-- The COCO class-name table built in `YoloDetector::new`. -/
def cocoNames : List String :=
  ["person", "bicycle", "car", "motorcycle", "airplane", "bus", "train", "truck", "boat",
   "traffic light", "fire hydrant", "stop sign", "parking meter", "bench", "bird", "cat",
   "dog", "horse", "sheep", "cow", "elephant", "bear", "zebra", "giraffe", "backpack",
   "umbrella", "handbag", "tie", "suitcase", "frisbee", "skis", "snowboard", "sports ball",
   "kite", "baseball bat", "baseball glove", "skateboard", "surfboard", "tennis racket",
   "bottle", "wine glass", "cup", "fork", "knife", "spoon", "bowl", "banana", "apple",
   "sandwich", "orange", "broccoli", "carrot", "hot dog", "pizza", "donut", "cake", "chair",
   "couch", "potted plant", "bed", "dining table", "toilet", "tv", "laptop", "mouse",
   "remote", "keyboard", "cell phone", "microwave", "oven", "toaster", "sink", "refrigerator",
   "book", "clock", "vase", "scissors", "teddy bear", "hair drier", "toothbrush"]

/-- The `Detection` record of `main.rs` / the visualizer: per-instance name,
class name, confidence, and a normalized center-form box. -/
structure MainDetection where
  name : String
  class_name : String
  confidence : ℚ
  x : ℚ
  y : ℚ
  width : ℚ
  height : ℚ
  deriving DecidableEq, Repr

/-- A rank-3 output tensor (`(batch, channel, anchor)` indexing); `main.rs`
checks `output_shape.len() >= 3` and then uses dimensions 0, 1, 2, which this
rank-3 model covers. -/
structure T3 where
  s0 : ℕ
  s1 : ℕ
  s2 : ℕ
  val : ℕ → ℕ → ℕ → ℚ

/-- `output_values.get([a, b, c]).unwrap_or(&0.0)`: a total read defaulting
to 0 outside the shape. -/
def T3.get (t : T3) (a b c : ℕ) : ℚ :=
  if 0 < t.s0 ∧ b < t.s1 ∧ c < t.s2 then t.val a b c else 0

/-- The detector state of `main.rs`: an optionally loaded model (its runnable
innards are external and carry no information the claims need), the fixed
input size and the class-name table. -/
structure YoloDetector where
  model : Option Unit
  input_width : ℕ
  input_height : ℕ
  class_names : List String

/-- Outcome of the model-loading attempts in `YoloDetector::new`. -/
inductive ModelLoadResult where
  | loaded
  | fileMissing
  | loadFailed
  deriving DecidableEq, Repr

/-- `YoloDetector::new`: a missing model file or a failed load logs and keeps
`model = None`; the constructor itself always succeeds (`Ok(Self { .. })`). -/
def YoloDetector.new (load : ModelLoadResult) : YoloDetector :=
  { model :=
      match load with
      | .loaded => some ()
      | .fileMissing => none
      | .loadFailed => none
    input_width := 640
    input_height := 640
    class_names := cocoNames }

/-- The class scan of `YoloDetector::postprocess`: `for c in 0..80`, guarded
by `4 + c < output_shape[1]`, tracking the maximum confidence and its class
index. -/
def mainClassScan (t : T3) (i : ℕ) : ℕ → ℕ → ℕ × ℚ → ℕ × ℚ
  | _, 0, acc => acc
  | c, fuel + 1, (max_class_idx, max_conf) =>
    mainClassScan t i (c + 1) fuel
      (if 4 + c < t.s1 then
        if max_conf < t.get 0 (4 + c) i then (c, t.get 0 (4 + c) i)
        else (max_class_idx, max_conf)
      else (max_class_idx, max_conf))

/-- One anchor of `YoloDetector::postprocess`: read the four bbox channels,
scan the class channels, and push a detection when `max_conf > 0.1` and the
class index is within the name table. -/
def YoloDetector.postprocessAnchor (self : YoloDetector) (t : T3)
    (img_width img_height : ℚ) (i : ℕ) : Option MainDetection :=
  let bbox_x := t.get 0 0 i
  let bbox_y := t.get 0 1 i
  let bbox_w := t.get 0 2 i
  let bbox_h := t.get 0 3 i
  let scan := mainClassScan t i 0 80 (0, 0)
  if 0.1 < scan.2 ∧ scan.1 < self.class_names.length then
    some
      { name := self.class_names.getD scan.1 "" ++ "_" ++ toString i
        class_name := self.class_names.getD scan.1 ""
        confidence := scan.2
        x := bbox_x / img_width
        y := bbox_y / img_height
        width := bbox_w / img_width
        height := bbox_h / img_height }
  else none

/-- The anchor loop of `YoloDetector::postprocess` over
`0..num_detections.min(100)` (push order kept via a reversed accumulator). -/
def YoloDetector.postprocessLoop (self : YoloDetector) (t : T3)
    (img_width img_height : ℚ) : ℕ → ℕ → List MainDetection → List MainDetection
  | _, 0, acc => acc.reverse
  | i, fuel + 1, acc =>
    match self.postprocessAnchor t img_width img_height i with
    | some d => self.postprocessLoop t img_width img_height (i + 1) fuel (d :: acc)
    | none => self.postprocessLoop t img_width img_height (i + 1) fuel acc

/-- `YoloDetector::postprocess`: empty on an unexpected shape
(`batch ≠ 1` or fewer than 84 channels), else decode the first
`min(num_detections, 100)` anchors. -/
def YoloDetector.postprocess (self : YoloDetector) (t : T3)
    (img_width img_height : ℚ) : List MainDetection :=
  if t.s0 = 1 ∧ 84 ≤ t.s1 then
    self.postprocessLoop t img_width img_height 0 (min t.s2 100) []
  else []

/-- `create_mock_detections`: the fixed two-record mock output. -/
def create_mock_detections (frame_id : ℕ) : List MainDetection :=
  [{ name := "person_" ++ toString (frame_id % 10)
     class_name := "person"
     confidence := 0.95
     x := 0.3
     y := 0.4
     width := 0.2
     height := 0.4 },
   { name := "car_" ++ toString (frame_id % 5)
     class_name := "car"
     confidence := 0.87
     x := 0.6
     y := 0.5
     width := 0.25
     height := 0.2 }]

/-- `YoloDetector::detect`: with a loaded model, preprocess + inference +
postprocess (the external inference is abstracted by the output tensor
argument); with no model, `create_mock_detections(0)` for every frame. -/
def YoloDetector.detect (self : YoloDetector) (infer_output : T3)
    (width height : ℚ) : List MainDetection :=
  match self.model with
  | some _ => self.postprocess infer_output width height
  | none => create_mock_detections 0

/-! ## detector_node/src/lib.rs: startup and the frame-length guard -/

/-- Whether `dora_node_main` (lib.rs) reaches its event loop. -/
inductive LibDetectorStartup where
  | exitedBeforeLoop
  | enteredLoop
  deriving DecidableEq, Repr

/-- The model-loading phase of lib.rs `dora_node_main`: a load error prints
and `return`s — the stage terminates before its event loop ever runs. -/
def dora_node_main_startup (model_load : Except String Unit) : LibDetectorStartup :=
  match model_load with
  | .error _ => .exitedBeforeLoop
  | .ok _ => .enteredLoop

/-- The frame handler's conversion in lib.rs: the input tensor is built only
when `data_bytes.len() >= 3 * 480 * 640` (otherwise the frame is skipped with
an eprintln, modelled as `none`); pixels are taken from
`chunks_exact(3).take(640 * 640)` with a BGR→RGB swap into planar layout, and
unwritten positions keep their `0.0` initialisation. -/
def preprocessFrame (data_bytes : List ℕ) : Option (ℕ → ℚ) :=
  if 3 * 480 * 640 ≤ data_bytes.length then
    some fun idx =>
      if idx % (640 * 640) < min (data_bytes.length / 3) (640 * 640) then
        (data_bytes.getD (3 * (idx % (640 * 640)) + (2 - idx / (640 * 640))) 0 : ℚ) / 255
      else 0
  else none

/-! ## C8: the frame-length guard -/

/-- C8 (amended): the detector's frame handler (lib.rs) builds a tensor
exactly when the pixel buffer holds at least `3 * 480 * 640` bytes — a
sufficiency check, not the equality `len = width*height*channels` the claim
states — and skips the frame otherwise; when it proceeds, position 0 of the
tensor is the blue byte of the first pixel scaled by 1/255 (the BGR→RGB
swap).  An oversized buffer (length ≠ 640*480*3) is accepted, refuting
"rejects exactly when the length does not equal width*height*channels"; see
`frame_length_guard_counterexample`.  (`YoloDetector::preprocess` in main.rs
performs no length check at all.) -/
theorem frame_length_guard (data_bytes : List ℕ) :
    ((preprocessFrame data_bytes).isSome ↔ 3 * 480 * 640 ≤ data_bytes.length) ∧
      ∀ arr, preprocessFrame data_bytes = some arr →
        arr 0 = (data_bytes.getD 2 0 : ℚ) / 255 := by
  constructor
  · unfold preprocessFrame
    split_ifs with hlen
    · simpa using hlen
    · simpa using hlen
  · intro arr harr
    unfold preprocessFrame at harr
    split_ifs at harr with hlen
    · simp only [Option.some.injEq] at harr
      subst harr
      have hpos : (0 : ℕ) % (640 * 640) < min (data_bytes.length / 3) (640 * 640) := by
        have h3 : 307200 ≤ data_bytes.length / 3 := by omega
        omega
      simp only [if_pos hpos]

/-- C8 counterexample: a buffer one byte longer than `640*480*3` is accepted
by the frame handler, although its length differs from
`width*height*channels`. -/
theorem frame_length_guard_counterexample :
    (preprocessFrame (List.replicate (3 * 480 * 640 + 1) 0)).isSome = true ∧
      (List.replicate (3 * 480 * 640 + 1) 0).length ≠ 640 * 480 * 3 := by
  constructor
  · unfold preprocessFrame
    rw [if_pos (by rw [List.length_replicate]; omega)]
    rfl
  · rw [List.length_replicate]
    omega

/-- The tensor the frame handler builds for the all-5 well-sized buffer. -/
def sampleFrameArr : ℕ → ℚ := fun idx =>
  if idx % (640 * 640) <
      min ((List.replicate (3 * 480 * 640) (5 : ℕ)).length / 3) (640 * 640) then
    ((List.replicate (3 * 480 * 640) (5 : ℕ)).getD
        (3 * (idx % (640 * 640)) + (2 - idx / (640 * 640))) 0 : ℚ) / 255
  else 0

/-- Witness for C8 at an exact-size all-5 buffer: the handler proceeds and
the first tensor entry is `5 / 255`. -/
theorem frame_length_guard_witness :
    ((preprocessFrame (List.replicate (3 * 480 * 640) (5 : ℕ))).isSome ↔
        3 * 480 * 640 ≤ (List.replicate (3 * 480 * 640) (5 : ℕ)).length) ∧
      sampleFrameArr 0 =
        ((List.replicate (3 * 480 * 640) (5 : ℕ)).getD 2 0 : ℚ) / 255 := by
  have hpre : preprocessFrame (List.replicate (3 * 480 * 640) (5 : ℕ)) =
      some sampleFrameArr := by
    unfold preprocessFrame sampleFrameArr
    rw [if_pos (by rw [List.length_replicate])]
  exact ⟨(frame_length_guard (List.replicate (3 * 480 * 640) (5 : ℕ))).1,
    (frame_length_guard (List.replicate (3 * 480 * 640) (5 : ℕ))).2 sampleFrameArr hpre⟩

/-! ## C9: ModelUnavailable -/

/-- C9 (amended): in `main.rs`, a missing or unloadable model leaves the
detector constructed with `model = None` and `detect` returns the fixed,
nonempty mock detections for every frame — the stage keeps running in this
degraded mode.  In the lib.rs variant, however, `dora_node_main` returns on
a model-load failure and its event loop is never entered
(see `lib_detector_exits_on_model_failure`). -/
theorem model_unavailable_mock_mode (load : ModelLoadResult)
    (hload : load ≠ .loaded) :
    (YoloDetector.new load).model = none ∧
      (∀ (t : T3) (w h : ℚ),
        (YoloDetector.new load).detect t w h = create_mock_detections 0) ∧
      create_mock_detections 0 ≠ [] := by
  cases load with
  | loaded => exact absurd rfl hload
  | fileMissing => exact ⟨rfl, fun _ _ _ => rfl, by simp [create_mock_detections]⟩
  | loadFailed => exact ⟨rfl, fun _ _ _ => rfl, by simp [create_mock_detections]⟩

/-- C9 counterexample: the lib.rs detection stage terminates (returns before
entering its event loop) when the model fails to load, rather than
continuing in a degraded mode. -/
theorem lib_detector_exits_on_model_failure :
    dora_node_main_startup (Except.error ("failed to load model")) =
        .exitedBeforeLoop ∧
      LibDetectorStartup.exitedBeforeLoop ≠ LibDetectorStartup.enteredLoop :=
  ⟨rfl, by decide⟩

/-- Witness for C9 with a missing model file and a concrete frame tensor. -/
theorem model_unavailable_mock_mode_witness :
    (YoloDetector.new .fileMissing).model = none ∧
      (YoloDetector.new .fileMissing).detect ⟨1, 84, 1, fun _ _ _ => 0⟩ 640 480 =
        create_mock_detections 0 ∧
      create_mock_detections 0 ≠ [] := by
  obtain ⟨h1, h2, h3⟩ := model_unavailable_mock_mode .fileMissing (by decide)
  exact ⟨h1, h2 ⟨1, 84, 1, fun _ _ _ => 0⟩ 640 480, h3⟩

/-! ## C10 lemmas: length, confidence and locality of the main.rs decoder -/

/-- The anchor loop adds at most one detection per unit of fuel. -/
theorem postprocessLoop_length {self : YoloDetector} {t : T3} {w h : ℚ} :
    ∀ (fuel i : ℕ) (acc : List MainDetection),
      (self.postprocessLoop t w h i fuel acc).length ≤ fuel + acc.length := by
  intro fuel
  induction fuel with
  | zero => intro i acc; simp [YoloDetector.postprocessLoop]
  | succ fuel ih =>
    intro i acc
    cases ha : self.postprocessAnchor t w h i with
    | some d =>
      simp only [YoloDetector.postprocessLoop, ha]
      have := ih (i + 1) (d :: acc)
      simp only [List.length_cons] at this
      omega
    | none =>
      simp only [YoloDetector.postprocessLoop, ha]
      have := ih (i + 1) acc
      omega

/-- Every loop output comes from the accumulator or from some anchor. -/
theorem postprocessLoop_mem {self : YoloDetector} {t : T3} {w h : ℚ} :
    ∀ {fuel i : ℕ} {acc : List MainDetection} (d : MainDetection),
      d ∈ self.postprocessLoop t w h i fuel acc →
      d ∈ acc ∨ ∃ j, self.postprocessAnchor t w h j = some d := by
  intro fuel
  induction fuel with
  | zero =>
    intro i acc d hd
    simp only [YoloDetector.postprocessLoop] at hd
    exact Or.inl (List.mem_reverse.mp hd)
  | succ fuel ih =>
    intro i acc d hd
    cases ha : self.postprocessAnchor t w h i with
    | some d' =>
      simp only [YoloDetector.postprocessLoop, ha] at hd
      rcases ih d hd with hacc | hem
      · rcases List.mem_cons.mp hacc with rfl | hacc
        · exact Or.inr ⟨i, ha⟩
        · exact Or.inl hacc
      · exact Or.inr hem
    | none =>
      simp only [YoloDetector.postprocessLoop, ha] at hd
      exact ih d hd

/-- An emitted detection carries the confidence that passed the `> 0.1`
gate. -/
theorem postprocessAnchor_conf {self : YoloDetector} {t : T3} {w h : ℚ} {i : ℕ}
    {d : MainDetection} (hd : self.postprocessAnchor t w h i = some d) :
    0.1 < d.confidence := by
  unfold YoloDetector.postprocessAnchor at hd
  by_cases hc : 0.1 < (mainClassScan t i 0 80 (0, 0)).2 ∧
      (mainClassScan t i 0 80 (0, 0)).1 < self.class_names.length
  · simp only [if_pos hc, Option.some.injEq] at hd
    subst hd
    exact hc.1
  · simp only [if_neg hc] at hd
    exact Option.noConfusion hd

/-- Reads agree on tensors of the same shape whose values agree on the
scanned anchors. -/
theorem T3.get_congr {t t' : T3} (h0 : t.s0 = t'.s0) (h1 : t.s1 = t'.s1)
    (h2 : t.s2 = t'.s2)
    (hval : ∀ c < t.s1, ∀ i < min t.s2 100, t.val 0 c i = t'.val 0 c i)
    {c i : ℕ} (hc : c < t.s1) (hi : i < min t.s2 100) :
    t.get 0 c i = t'.get 0 c i := by
  unfold T3.get
  rw [← h0, ← h1, ← h2]
  split_ifs with h
  · exact hval c hc i hi
  · rfl

/-- The class scan only looks at channels below `s1`. -/
theorem mainClassScan_congr {t t' : T3} {i : ℕ} (h1 : t.s1 = t'.s1)
    (hget : ∀ c < t.s1, t.get 0 c i = t'.get 0 c i) :
    ∀ (fuel c : ℕ) (acc : ℕ × ℚ),
      mainClassScan t i c fuel acc = mainClassScan t' i c fuel acc := by
  intro fuel
  induction fuel with
  | zero => intro c acc; rfl
  | succ fuel ih =>
    intro c acc
    obtain ⟨idx, best⟩ := acc
    simp only [mainClassScan]
    rw [← h1]
    by_cases hg : 4 + c < t.s1
    · rw [if_pos hg, if_pos hg, hget (4 + c) hg]
      exact ih _ _
    · rw [if_neg hg, if_neg hg]
      exact ih _ _

/-- An anchor's result depends only on the tensor values at that anchor. -/
theorem postprocessAnchor_congr {self : YoloDetector} {t t' : T3} {w h : ℚ}
    {i : ℕ} (h0 : t.s0 = t'.s0) (h1 : t.s1 = t'.s1) (h2 : t.s2 = t'.s2)
    (hval : ∀ c < t.s1, ∀ j < min t.s2 100, t.val 0 c j = t'.val 0 c j)
    (hi : i < min t.s2 100) :
    self.postprocessAnchor t w h i = self.postprocessAnchor t' w h i := by
  have hget : ∀ c, c < t.s1 → t.get 0 c i = t'.get 0 c i :=
    fun c hc => T3.get_congr h0 h1 h2 hval hc hi
  unfold YoloDetector.postprocessAnchor
  rw [mainClassScan_congr h1 hget 80 0 (0, 0)]
  by_cases hb0 : 0 < t.s1
  · by_cases hb1 : 1 < t.s1
    · by_cases hb2 : 2 < t.s1
      · by_cases hb3 : 3 < t.s1
        · rw [hget 0 hb0, hget 1 hb1, hget 2 hb2, hget 3 hb3]
        · rw [hget 0 hb0, hget 1 hb1, hget 2 hb2]
          have e3 : t.get 0 3 i = t'.get 0 3 i := by
            unfold T3.get
            rw [← h0, ← h1, ← h2]
            split_ifs with hcond
            · exact absurd hcond.2.1 hb3
            · rfl
          rw [e3]
      · have e2 : t.get 0 2 i = t'.get 0 2 i := by
          unfold T3.get
          rw [← h0, ← h1, ← h2]
          split_ifs with hcond
          · exact absurd hcond.2.1 hb2
          · rfl
        have e3 : t.get 0 3 i = t'.get 0 3 i := by
          unfold T3.get
          rw [← h0, ← h1, ← h2]
          split_ifs with hcond
          · exact absurd hcond.2.1 (by omega)
          · rfl
        rw [hget 0 hb0, hget 1 hb1, e2, e3]
    · have e1 : ∀ c, 1 ≤ c → t.get 0 c i = t'.get 0 c i := by
        intro c hc
        unfold T3.get
        rw [← h0, ← h1, ← h2]
        split_ifs with hcond
        · exact absurd hcond.2.1 (by omega)
        · rfl
      rw [hget 0 hb0, e1 1 le_rfl, e1 2 (by omega), e1 3 (by omega)]
  · have e0 : ∀ c, t.get 0 c i = t'.get 0 c i := by
      intro c
      unfold T3.get
      rw [← h0, ← h1, ← h2]
      split_ifs with hcond
      · exact absurd hcond.2.1 (by omega)
      · rfl
    rw [e0 0, e0 1, e0 2, e0 3]

/-- The anchor loop depends only on the first `min s2 100` anchors. -/
theorem postprocessLoop_congr {self : YoloDetector} {t t' : T3} {w h : ℚ}
    (h0 : t.s0 = t'.s0) (h1 : t.s1 = t'.s1) (h2 : t.s2 = t'.s2)
    (hval : ∀ c < t.s1, ∀ j < min t.s2 100, t.val 0 c j = t'.val 0 c j) :
    ∀ (fuel i : ℕ) (acc : List MainDetection), i + fuel ≤ min t.s2 100 →
      self.postprocessLoop t w h i fuel acc = self.postprocessLoop t' w h i fuel acc := by
  intro fuel
  induction fuel with
  | zero => intro i acc _; rfl
  | succ fuel ih =>
    intro i acc hbound
    have hi : i < min t.s2 100 := by omega
    simp only [YoloDetector.postprocessLoop]
    rw [postprocessAnchor_congr h0 h1 h2 hval hi]
    cases ha : self.postprocessAnchor t' w h i with
    | some d => exact ih (i + 1) (d :: acc) (by omega)
    | none => exact ih (i + 1) acc (by omega)

/-! ## C10: the duplicate decoder is bounded -/

/-- C10: the `main.rs` decoder examines at most the first
`min (num_detections, 100)` anchors — its result has length at most 100 and
is unchanged by arbitrary modifications of later anchors — and every
returned detection's confidence (its maximum class score) strictly exceeds
0.1. -/
theorem main_decoder_bounded :
    (∀ (self : YoloDetector) (t : T3) (w h : ℚ),
        (self.postprocess t w h).length ≤ 100) ∧
      (∀ (self : YoloDetector) (t : T3) (w h : ℚ),
          ∀ d ∈ self.postprocess t w h, 0.1 < d.confidence) ∧
      (∀ (self : YoloDetector) (t t' : T3) (w h : ℚ),
          t.s0 = t'.s0 → t.s1 = t'.s1 → t.s2 = t'.s2 →
          (∀ c < t.s1, ∀ j < min t.s2 100, t.val 0 c j = t'.val 0 c j) →
          self.postprocess t w h = self.postprocess t' w h) := by
  refine ⟨?_, ?_, ?_⟩
  · intro self t w h
    unfold YoloDetector.postprocess
    split_ifs
    · have hlen := @postprocessLoop_length self t w h (min t.s2 100) 0 []
      simp only [List.length_nil] at hlen
      omega
    · simp
  · intro self t w h d hd
    unfold YoloDetector.postprocess at hd
    split_ifs at hd
    · rcases postprocessLoop_mem d hd with habs | ⟨j, hj⟩
      · simp at habs
      · exact postprocessAnchor_conf hj
    · simp at hd
  · intro self t t' w h h0 h1 h2 hval
    unfold YoloDetector.postprocess
    rw [← h0, ← h1, ← h2]
    split_ifs with hcond
    · rw [postprocessLoop_congr h0 h1 h2 hval (min t.s2 100) 0 [] (by omega)]
    · rfl

/-- Witness for C10: a one-anchor constant-0.5 tensor yields one detection
of confidence 0.5 (above 0.1) within the length bound, and two 101-anchor
tensors that agree on anchors 0..99 but differ at anchor 100 decode
identically. -/
theorem main_decoder_bounded_witness :
    ((YoloDetector.new .loaded).postprocess ⟨1, 84, 1, fun _ _ _ => 0.5⟩
        640 480).length ≤ 100 ∧
      0.1 < (⟨"person_0", "person", 0.5, 1/1280, 1/960, 1/1280, 1/960⟩ :
        MainDetection).confidence ∧
      (YoloDetector.new .loaded).postprocess
          ⟨1, 84, 101, fun _ _ j => if j < 100 then 0 else 0.5⟩ 640 480 =
        (YoloDetector.new .loaded).postprocess ⟨1, 84, 101, fun _ _ _ => 0⟩ 640 480 := by
  refine ⟨main_decoder_bounded.1 (YoloDetector.new .loaded)
      ⟨1, 84, 1, fun _ _ _ => 0.5⟩ 640 480, ?_, ?_⟩
  · have heval : (YoloDetector.new .loaded).postprocess ⟨1, 84, 1, fun _ _ _ => 0.5⟩
        640 480 =
        [⟨"person_0", "person", 0.5, 1/1280, 1/960, 1/1280, 1/960⟩] := by
      with_unfolding_all rfl
    refine main_decoder_bounded.2.1 (YoloDetector.new .loaded)
      ⟨1, 84, 1, fun _ _ _ => 0.5⟩ 640 480 _ ?_
    rw [heval]
    exact List.mem_singleton_self _
  · refine main_decoder_bounded.2.2 (YoloDetector.new .loaded)
      ⟨1, 84, 101, fun _ _ j => if j < 100 then 0 else 0.5⟩
      ⟨1, 84, 101, fun _ _ _ => 0⟩ 640 480 rfl rfl rfl ?_
    intro c hc j hj
    have hj' : j < 100 := lt_of_lt_of_le hj (min_le_right _ _)
    simp only [if_pos hj']
